import Mathlib

/-!
# Verification of the `consonance_analyser` pipeline

Shallow embedding of `waveform_analysis/consonance_analyser.py`.

Python floats are modelled as real numbers (`ℝ`), numpy arrays as `List ℝ`,
and Python `round` as Mathlib's `round` (`⌊x + 1/2⌋`; Python's banker's
rounding differs only on exact half-integer reals, which none of the
statements below touch).  Operations that can raise an exception in Python
are modelled with `Option`: `none` stands for an uncaught exception.
The Int operations `/` and `%` in Lean are Euclidean division and modulus,
which agree with Python's `//` and `%` for the positive moduli used here.
-/

open scoped Classical

noncomputable section

namespace Consonance

/-! ## Tunable constants (from the module header of the script) -/

/-- `FPS = 4` — visualiser frames per second. -/
def FPS : ℕ := 4

/-- `WINDOW_SEC = 0.25` — scrolling-window length in seconds. -/
def WINDOW_SEC : ℝ := 0.25

/-- `MIN_WEIGHT = 0.20` — ignore peaks below 20 % of the frame max. -/
def MIN_WEIGHT : ℝ := 0.20

/-- `MIN_REL_AMP = 0.05` — ignore FFT bins below 5 % of the frame max. -/
def MIN_REL_AMP : ℝ := 0.05

/-- `CENTS_TOL = 6` — max tuning error (cents) for ratio simplification. -/
def CENTS_TOL : ℝ := 6

/-- `MAX_DEN_SEARCH = 32` — denominator search bound. -/
def MAX_DEN_SEARCH : ℕ := 32

/-- `NOTE_NAMES` — the twelve pitch-class names. -/
def NOTE_NAMES : List String :=
  ["C", "C#", "D", "D#", "E", "F"] ++
    ["F#", "G", "G#", "A", "A#", "B"]

/-! ## Utility helpers (`freq_to_note`, `cents`) -/

/-- `freq_to_note(freq)` from the script.  The list access
`NOTE_NAMES[idx % 12]` is modelled fallibly with `List.get?` (a Python
`IndexError` would be `none`); the theorem for the error-handling claim
shows it always succeeds. -/
def freq_to_note (freq : ℝ) : Option String :=
  if freq ≤ 0 then some "—"
  else
    let semitones : ℝ := 69 + 12 * Real.logb 2 (freq / 440)
    let idx : ℤ := round semitones
    (NOTE_NAMES.get? (idx % 12).toNat).map fun name =>
      name ++ toString (idx / 12 - 1)

/-- `cents(ratio) = 1200 * log2(ratio)`. -/
def cents (ratio : ℝ) : ℝ := 1200 * Real.logb 2 ratio

/-! ## Exact fractions (`fractions.Fraction`) -/

/-- A reduced fraction, as produced by Python's `Fraction(n, d)`. -/
structure Frac where
  num : ℤ
  den : ℤ
deriving DecidableEq

/-- `Fraction(n, d)` for `d > 0` (the only way the script builds one):
divide numerator and denominator by their gcd. -/
def mkFrac (n d : ℤ) : Frac :=
  let g : ℤ := Int.gcd n d
  ⟨n / g, d / g⟩

/-- The denominator loop of the interval scorer
(`for d in range(1, MAX_DEN_SEARCH + 1): ...` with an early `break`),
over an explicit list of denominators. -/
def searchFrac (rawRatio : ℝ) : List ℕ → Option Frac
  | [] => none
  | d :: ds =>
    let n : ℤ := round (rawRatio * d)
    if n = 0 then searchFrac rawRatio ds
    else
      let frac := mkFrac n d
      let approxVal : ℝ := (frac.num : ℝ) / (frac.den : ℝ)
      if |cents (rawRatio / approxVal)| ≤ CENTS_TOL then some frac
      else searchFrac rawRatio ds

/-- `best_frac` for one peak pair: first denominator from 1 to
`MAX_DEN_SEARCH` that approximates `rawRatio` within `CENTS_TOL`. -/
def bestFrac (rawRatio : ℝ) : Option Frac :=
  searchFrac rawRatio (List.range' 1 MAX_DEN_SEARCH)

/-! ## Framing and spectral analysis -/

/-- `win_len = int(fs * WINDOW_SEC)` — Python `int()` truncates toward
zero, which is the floor for the nonnegative value here. -/
def winLenOf (fs : ℕ) : ℕ := (⌊(fs : ℝ) * WINDOW_SEC⌋).toNat

/-- `samples_per_frame = int(fs / FPS)`. -/
def strideOf (fs : ℕ) : ℕ := (⌊(fs : ℝ) / (FPS : ℕ)⌋).toNat

/-- `total_frames = int(len(audio) / fs * FPS)`. -/
def frameCountOf (fs totalSamples : ℕ) : ℕ :=
  (⌊(totalSamples : ℝ) / (fs : ℝ) * (FPS : ℕ)⌋).toNat

/-- `np.hanning(M)`: empty for `M = 0`, `[1]` for `M = 1`, otherwise
`w[n] = 0.5 - 0.5*cos(2*pi*n/(M-1))`. -/
def hanning (M : ℕ) : List ℝ :=
  if M = 0 then []
  else if M = 1 then [1]
  else (List.range M).map fun n : ℕ =>
    0.5 - 0.5 * Real.cos (2 * Real.pi * (n : ℝ) / ((M : ℝ) - 1))

/-- `seg = audio[start:start+win_len]` followed by
`np.pad(seg, (0, win_len - len(seg)))`: right-zero-padded slice. -/
def mkSeg (audio : List ℝ) (start winLen : ℕ) : List ℝ :=
  let seg := (audio.drop start).take winLen
  seg ++ List.replicate (winLen - seg.length) 0

/-- `np.abs(np.fft.rfft(x))`: magnitudes of the first `len/2 + 1` bins of
the discrete Fourier transform. -/
def rfftMag (x : List ℝ) : List ℝ :=
  (List.range (x.length / 2 + 1)).map fun k : ℕ =>
    Complex.abs (∑ n ∈ Finset.range x.length,
      (x.getD n 0 : ℂ) *
        Complex.exp (-(2 * Real.pi * Complex.I * (k : ℂ) * (n : ℂ)) /
          (x.length : ℂ)))

/-- `np.fft.rfftfreq(win_len, 1/fs)`: `win_len/2 + 1` values
`k * val` with `val = 1/(n*d)` and `d = 1/fs`. -/
def freqAxis (fs winLen : ℕ) : List ℝ :=
  (List.range (winLen / 2 + 1)).map fun k : ℕ =>
    (k : ℝ) * (1 / ((winLen : ℝ) * (1 / (fs : ℝ))))

/-- The frame's magnitude spectrum, `mag = np.abs(np.fft.rfft(seg * hann_win))`. -/
def magOf (hwin seg : List ℝ) : List ℝ := rfftMag (List.zipWith (· * ·) seg hwin)

/-- `mag.max()` — the magnitudes are nonnegative, so folding `max` from 0
agrees with numpy's maximum on every nonempty magnitude list. -/
def listMax (l : List ℝ) : ℝ := l.foldl max 0

/-! ## Peak detection -/

/-- One detected peak `(freq, note, weight)` of a frame. -/
structure Peak where
  freq : ℝ
  note : Option String
  weight : ℝ

/-- The indices kept by the peak loop: `idx` in `range(1, len(mag)-1)` with
`amp < MIN_REL_AMP * max_amp` and `amp < mag[idx-1] or amp < mag[idx+1]`
both failing (the two `continue` guards). -/
def rawPeakIdxs (mag : List ℝ) (maxAmp : ℝ) : List ℕ :=
  (List.range' 1 (mag.length - 2)).filter fun idx =>
    ¬ mag.getD idx 0 < MIN_REL_AMP * maxAmp ∧
    ¬ (mag.getD idx 0 < mag.getD (idx - 1) 0 ∨
       mag.getD idx 0 < mag.getD (idx + 1) 0)

/-- `raw_peaks`: each kept index becomes `(freq, freq_to_note(freq), amp / max_amp)`. -/
def rawPeaksOf (freqs mag : List ℝ) (maxAmp : ℝ) : List Peak :=
  (rawPeakIdxs mag maxAmp).map fun idx =>
    ⟨freqs.getD idx 0, freq_to_note (freqs.getD idx 0), mag.getD idx 0 / maxAmp⟩

/-- `note_list = [(f, n, w) for f, n, w in raw_peaks if w >= MIN_WEIGHT]`. -/
def noteListOf (freqs mag : List ℝ) (maxAmp : ℝ) : List Peak :=
  (rawPeaksOf freqs mag maxAmp).filter fun p => p.weight ≥ MIN_WEIGHT

/-! ## Interval scoring -/

/-- All pairs `(l[a], l[b])` with `a < b`, in the order of the nested
`for a … for b in range(a+1, …)` loops. -/
def pairsOf {α : Type} : List α → List (α × α)
  | [] => []
  | x :: xs => (xs.map fun y => (x, y)) ++ pairsOf xs

/-- Contribution of one peak pair to
`(total_weighted_complexity, total_weight)`: zero when the note names are
equal or no denominator qualifies, otherwise
`(relevance * complexity, relevance)`. -/
def pairContrib (p q : Peak) : ℝ × ℝ :=
  if p.note = q.note then (0, 0)
  else
    let hi_lo : ℝ × ℝ × ℝ × ℝ :=
      if p.freq ≥ q.freq then (p.freq, p.weight, q.freq, q.weight)
      else (q.freq, q.weight, p.freq, p.weight)
    let rawRatio := hi_lo.1 / hi_lo.2.2.1
    match bestFrac rawRatio with
    | none => (0, 0)
    | some frac =>
      let relevance := Real.sqrt (hi_lo.2.1 * hi_lo.2.2.2)
      let complexity : ℝ := ((frac.num + frac.den : ℤ) : ℝ)
      (relevance * complexity, relevance)

/-- One iteration of the frame loop acting on the accumulator pair
`(total_weighted_complexity, total_weight)`; the three `continue` guards
(`not mag.any()`, `max_amp == 0`, `len(note_list) < 2`) leave it unchanged. -/
def processFrame (freqs hwin : List ℝ) (acc : ℝ × ℝ) (seg : List ℝ) : ℝ × ℝ :=
  let mag := magOf hwin seg
  if ∀ x ∈ mag, x = 0 then acc
  else
    let maxAmp := listMax mag
    if maxAmp = 0 then acc
    else
      let notes := noteListOf freqs mag maxAmp
      if notes.length < 2 then acc
      else
        (pairsOf notes).foldl
          (fun a pq =>
            (a.1 + (pairContrib pq.1 pq.2).1, a.2 + (pairContrib pq.1 pq.2).2))
          acc

/-- The whole of `main` (visualisation elided — it does not feed the score).
`none` models an uncaught exception: with `win_len = 0` (sample rate below
4 Hz) the call `np.fft.rfftfreq(0, 1/fs)` evaluates `1.0/(0*d)` and raises
`ZeroDivisionError` before the frame loop.  `some none` is the
`float("nan")` sentinel returned when `total_weight` is zero, and
`some (some s)` the score `10 * (1.0 / avg_complexity)`. -/
def runPipeline (fs : ℕ) (audio : List ℝ) : Option (Option ℝ) :=
  let winLen := winLenOf fs
  if winLen = 0 then none
  else
    let hwin := hanning winLen
    let freqs := freqAxis fs winLen
    let spf := strideOf fs
    let total := frameCountOf fs audio.length
    let acc := (List.range total).foldl
      (fun a i => processFrame freqs hwin a (mkSeg audio (i * spf) winLen)) (0, 0)
    if acc.2 = 0 then some none
    else some (some (10 * (1 / (acc.1 / acc.2))))

/-- The accumulator pair after the first `k` iterations of the frame loop
(a prefix of the fold inside `runPipeline`). -/
def accumAfter (fs : ℕ) (audio : List ℝ) (k : ℕ) : ℝ × ℝ :=
  ((List.range (frameCountOf fs audio.length)).take k).foldl
    (fun a i =>
      processFrame (freqAxis fs (winLenOf fs)) (hanning (winLenOf fs)) a
        (mkSeg audio (i * strideOf fs) (winLenOf fs)))
    (0, 0)

/-- Per-frame total contribution to the two accumulators, written as an
explicit sum over the qualifying peak pairs (used to state the
aggregation claims). -/
def frameTotals (freqs hwin : List ℝ) (seg : List ℝ) : ℝ × ℝ :=
  (((pairsOf (noteListOf freqs (magOf hwin seg) (listMax (magOf hwin seg)))).map
      fun pq => (pairContrib pq.1 pq.2).1).sum,
   ((pairsOf (noteListOf freqs (magOf hwin seg) (listMax (magOf hwin seg)))).map
      fun pq => (pairContrib pq.1 pq.2).2).sum)

/-! ## Arithmetic of the derived framing parameters -/

theorem winLenOf_eq (fs : ℕ) : winLenOf fs = fs / 4 := by
  have h : (fs : ℝ) * WINDOW_SEC = (fs : ℝ) / (4 : ℕ) := by
    norm_num [WINDOW_SEC]; ring
  rw [winLenOf, h, Int.floor_toNat, Nat.floor_div_nat, Nat.floor_natCast]

theorem strideOf_eq (fs : ℕ) : strideOf fs = fs / 4 := by
  rw [strideOf, Int.floor_toNat, FPS, Nat.floor_div_nat, Nat.floor_natCast]

theorem frameCountOf_eq (fs n : ℕ) : frameCountOf fs n = 4 * n / fs := by
  have h : (n : ℝ) / (fs : ℝ) * (FPS : ℕ) = ((4 * n : ℕ) : ℝ) / (fs : ℝ) := by
    push_cast [FPS]; ring
  rw [frameCountOf, h, Int.floor_toNat, Nat.floor_div_nat, Nat.floor_natCast]

theorem mkSeg_length (audio : List ℝ) (start winLen : ℕ) :
    (mkSeg audio start winLen).length = winLen := by
  simp only [mkSeg, List.length_append, List.length_replicate, List.length_take,
    List.length_drop]
  omega

theorem mkSeg_getD (audio : List ℝ) (start winLen j : ℕ) (hj : j < winLen) :
    (mkSeg audio start winLen).getD j 0 =
      if start + j < audio.length then audio.getD (start + j) 0 else 0 := by
  simp only [mkSeg]
  by_cases h : start + j < audio.length
  · rw [if_pos h]
    have hlt : j < ((audio.drop start).take winLen).length := by
      simp only [List.length_take, List.length_drop]; omega
    rw [List.getD_eq_getElem?_getD, List.getElem?_append_left hlt,
      List.getElem?_take, if_pos hj, List.getElem?_drop]
    rw [List.getD_eq_getElem?_getD]
  · rw [if_neg h]
    have hge : ((audio.drop start).take winLen).length ≤ j := by
      simp only [List.length_take, List.length_drop]; omega
    rw [List.getD_eq_getElem?_getD, List.getElem?_append_right hge]
    simp only [List.getElem?_replicate]
    split <;> rfl

/-- When the whole buffer is shorter than the window, frame 0 is the
buffer itself followed by zeros. -/
theorem mkSeg_short (audio : List ℝ) (winLen : ℕ)
    (h : audio.length < winLen) :
    mkSeg audio 0 winLen = audio ++ List.replicate (winLen - audio.length) 0 := by
  simp only [mkSeg, List.drop_zero]
  rw [List.take_of_length_le (by omega)]

/-! ## Logarithm estimates used for concrete cents computations -/

theorem le_logb_of_pow (x : ℝ) (n : ℕ) (hn : 0 < n) (hx : 0 < x)
    (h : 2 ≤ x ^ n) : 1 / (n : ℝ) ≤ Real.logb 2 x := by
  have hlog : Real.log 2 ≤ (n : ℝ) * Real.log x := by
    rw [← Real.log_pow]
    exact (Real.log_le_log_iff (by norm_num) (by positivity)).2 h
  have hn' : (0 : ℝ) < (n : ℝ) := by exact_mod_cast hn
  have h2 : (0 : ℝ) < Real.log 2 := Real.log_pos (by norm_num)
  rw [Real.logb, le_div_iff₀ h2]
  calc 1 / (n : ℝ) * Real.log 2 = Real.log 2 / n := by ring
    _ ≤ Real.log x := by
        rw [div_le_iff₀ hn', mul_comm]
        exact hlog

theorem neg_le_logb_of_pow (x : ℝ) (n : ℕ) (hn : 0 < n) (hx : 0 < x)
    (h : 1 / 2 ≤ x ^ n) : -(1 / (n : ℝ)) ≤ Real.logb 2 x := by
  have hlog : -Real.log 2 ≤ (n : ℝ) * Real.log x := by
    have h' := (Real.log_le_log_iff (by norm_num) (by positivity)).2 h
    rw [Real.log_pow, one_div, Real.log_inv] at h'
    exact h'
  have hn' : (0 : ℝ) < (n : ℝ) := by exact_mod_cast hn
  have h2 : (0 : ℝ) < Real.log 2 := Real.log_pos (by norm_num)
  rw [Real.logb, le_div_iff₀ h2]
  calc -(1 / (n : ℝ)) * Real.log 2 = -Real.log 2 / n := by ring
    _ ≤ Real.log x := by
        rw [div_le_iff₀ hn', mul_comm]
        exact hlog

theorem logb_lt_of_pow_lt (x : ℝ) (n : ℕ) (hn : 0 < n) (hx : 0 < x)
    (h : x ^ n < 2) : Real.logb 2 x < 1 / (n : ℝ) := by
  have hlog : (n : ℝ) * Real.log x < Real.log 2 := by
    rw [← Real.log_pow]
    exact Real.log_lt_log (by positivity) h
  have hn' : (0 : ℝ) < (n : ℝ) := by exact_mod_cast hn
  have h2 : (0 : ℝ) < Real.log 2 := Real.log_pos (by norm_num)
  rw [Real.logb, div_lt_div_iff₀ h2 hn']
  linarith

/-! ## Characterisation of the denominator search -/

/-- The acceptance condition of the loop body for denominator `d`:
`n = round(rawRatio*d)` is nonzero and the reduced fraction `n/d`
approximates `rawRatio` within `CENTS_TOL`. -/
def qualifies (r : ℝ) (d : ℕ) : Prop :=
  round (r * d) ≠ 0 ∧
  |cents (r / (((mkFrac (round (r * d)) d).num : ℝ) /
      ((mkFrac (round (r * d)) d).den : ℝ)))| ≤ CENTS_TOL

/-- Unfolding of one iteration of the denominator loop. -/
theorem searchFrac_cons (r : ℝ) (d : ℕ) (l : List ℕ) :
    searchFrac r (d :: l) =
      if round (r * d) = 0 then searchFrac r l
      else if |cents (r / (((mkFrac (round (r * d)) d).num : ℝ) /
          ((mkFrac (round (r * d)) d).den : ℝ)))| ≤ CENTS_TOL
        then some (mkFrac (round (r * d)) d)
        else searchFrac r l := rfl

theorem searchFrac_none_iff (r : ℝ) : ∀ (n a : ℕ),
    (searchFrac r (List.range' a n) = none ↔
      ∀ d, a ≤ d → d < a + n → ¬ qualifies r d) := by
  intro n
  induction n with
  | zero =>
    intro a
    simp only [List.range', searchFrac, true_iff]
    intro d h1 h2
    omega
  | succ m ih =>
    intro a
    rw [List.range'_succ, searchFrac_cons]
    by_cases h0 : round (r * (a : ℕ)) = 0
    · have hq : ¬ qualifies r a := fun hq => hq.1 h0
      rw [if_pos h0, ih (a + 1)]
      constructor
      · intro h d h1 h2
        rcases eq_or_lt_of_le h1 with rfl | h1'
        · exact hq
        · exact h d h1' (by omega)
      · intro h d h1 h2
        exact h d (by omega) (by omega)
    · rw [if_neg h0]
      by_cases hc : |cents (r / (((mkFrac (round (r * (a : ℕ))) a).num : ℝ) /
          ((mkFrac (round (r * (a : ℕ))) a).den : ℝ)))| ≤ CENTS_TOL
      · have hq : qualifies r a := ⟨h0, hc⟩
        rw [if_pos hc]
        constructor
        · intro h
          exact absurd h (by simp)
        · intro h
          exact absurd hq (h a le_rfl (by omega))
      · have hq : ¬ qualifies r a := fun hqq => hc hqq.2
        rw [if_neg hc, ih (a + 1)]
        constructor
        · intro h d h1 h2
          rcases eq_or_lt_of_le h1 with rfl | h1'
          · exact hq
          · exact h d h1' (by omega)
        · intro h d h1 h2
          exact h d (by omega) (by omega)

theorem searchFrac_some_iff (r : ℝ) : ∀ (n a : ℕ) (f : Frac),
    (searchFrac r (List.range' a n) = some f ↔
      ∃ d, a ≤ d ∧ d < a + n ∧ qualifies r d ∧
        (∀ e, a ≤ e → e < d → ¬ qualifies r e) ∧
        f = mkFrac (round (r * d)) d) := by
  intro n
  induction n with
  | zero =>
    intro a f
    simp only [List.range', searchFrac]
    constructor
    · intro h
      exact Option.noConfusion h
    · rintro ⟨d, h1, h2, -⟩
      omega
  | succ m ih =>
    intro a f
    rw [List.range'_succ, searchFrac_cons]
    by_cases h0 : round (r * (a : ℕ)) = 0
    · have hq : ¬ qualifies r a := fun hq => hq.1 h0
      rw [if_pos h0, ih (a + 1)]
      constructor
      · rintro ⟨d, h1, h2, h3, h4, h5⟩
        refine ⟨d, by omega, by omega, h3, ?_, h5⟩
        intro e he1 he2
        rcases eq_or_lt_of_le he1 with rfl | he'
        · exact hq
        · exact h4 e he' he2
      · rintro ⟨d, h1, h2, h3, h4, h5⟩
        have hda : d ≠ a := fun h => hq (h ▸ h3)
        refine ⟨d, by omega, by omega, h3, ?_, h5⟩
        intro e he1 he2
        exact h4 e (by omega) he2
    · rw [if_neg h0]
      by_cases hc : |cents (r / (((mkFrac (round (r * (a : ℕ))) a).num : ℝ) /
          ((mkFrac (round (r * (a : ℕ))) a).den : ℝ)))| ≤ CENTS_TOL
      · have hq : qualifies r a := ⟨h0, hc⟩
        rw [if_pos hc]
        constructor
        · intro h
          refine ⟨a, le_rfl, by omega, hq, ?_, (Option.some_inj.1 h).symm⟩
          intro e he1 he2
          exact ((by omega : False)).elim
        · rintro ⟨d, h1, h2, h3, h4, h5⟩
          have hda : d = a := by
            by_contra hne
            exact h4 a le_rfl (by omega) hq
          subst hda
          rw [h5]
      · have hq : ¬ qualifies r a := fun hqq => hc hqq.2
        rw [if_neg hc, ih (a + 1)]
        constructor
        · rintro ⟨d, h1, h2, h3, h4, h5⟩
          refine ⟨d, by omega, by omega, h3, ?_, h5⟩
          intro e he1 he2
          rcases eq_or_lt_of_le he1 with rfl | he'
          · exact hq
          · exact h4 e he' he2
        · rintro ⟨d, h1, h2, h3, h4, h5⟩
          have hda : d ≠ a := fun h => hq (h ▸ h3)
          refine ⟨d, by omega, by omega, h3, ?_, h5⟩
          intro e he1 he2
          exact h4 e (by omega) he2

/-! ## Facts about reduced fractions -/

/-- Reducing does not change the value of the fraction. -/
theorem mkFrac_val (n d : ℤ) (hd : d ≠ 0) :
    ((mkFrac n d).num : ℝ) / ((mkFrac n d).den : ℝ) = (n : ℝ) / (d : ℝ) := by
  have hg : (Int.gcd n d : ℤ) ≠ 0 := by
    simp only [ne_eq, Int.natCast_eq_zero, Int.gcd_eq_zero_iff, not_and]
    intro _
    exact hd
  obtain ⟨a, ha⟩ : (Int.gcd n d : ℤ) ∣ n := Int.gcd_dvd_left
  obtain ⟨b, hb⟩ : (Int.gcd n d : ℤ) ∣ d := Int.gcd_dvd_right
  have hnum : (mkFrac n d).num = a :=
    Int.ediv_eq_of_eq_mul_left hg (ha.trans (mul_comm _ _))
  have hden : (mkFrac n d).den = b :=
    Int.ediv_eq_of_eq_mul_left hg (hb.trans (mul_comm _ _))
  have hgR : ((Int.gcd n d : ℤ) : ℝ) ≠ 0 := by exact_mod_cast hg
  have hnR : (n : ℝ) = ((Int.gcd n d : ℤ) : ℝ) * (a : ℝ) := by exact_mod_cast ha
  have hdR : (d : ℝ) = ((Int.gcd n d : ℤ) : ℝ) * (b : ℝ) := by exact_mod_cast hb
  rw [hnum, hden, hnR, hdR, mul_div_mul_left _ _ hgR]

/-- Reducing a fraction with positive numerator and denominator keeps
both at least 1. -/
theorem mkFrac_pos (n d : ℤ) (hn : 1 ≤ n) (hd : 1 ≤ d) :
    1 ≤ (mkFrac n d).num ∧ 1 ≤ (mkFrac n d).den := by
  have hg1 : 1 ≤ (Int.gcd n d : ℤ) := by
    have : Int.gcd n d ≠ 0 := by
      simp only [ne_eq, Int.gcd_eq_zero_iff, not_and]
      intro h
      omega
    omega
  obtain ⟨a, ha⟩ : (Int.gcd n d : ℤ) ∣ n := Int.gcd_dvd_left
  obtain ⟨b, hb⟩ : (Int.gcd n d : ℤ) ∣ d := Int.gcd_dvd_right
  have hnum : (mkFrac n d).num = a :=
    Int.ediv_eq_of_eq_mul_left (by omega) (ha.trans (mul_comm _ _))
  have hden : (mkFrac n d).den = b :=
    Int.ediv_eq_of_eq_mul_left (by omega) (hb.trans (mul_comm _ _))
  constructor
  · rw [hnum]
    nlinarith
  · rw [hden]
    nlinarith

/-! ## The concrete ratio 1.4998 (a slightly flat perfect fifth) -/

theorem round_14998_one : round ((1.4998 : ℝ) * ((1 : ℕ) : ℝ)) = 1 := by
  rw [round_eq]
  norm_num

theorem round_14998_two : round ((1.4998 : ℝ) * ((2 : ℕ) : ℝ)) = 3 := by
  rw [round_eq]
  norm_num

theorem mkFrac_one_one : mkFrac 1 ((1 : ℕ) : ℤ) = ⟨1, 1⟩ := by decide

theorem mkFrac_three_two : mkFrac 3 ((2 : ℕ) : ℤ) = ⟨3, 2⟩ := by decide

theorem not_qualifies_14998_one : ¬ qualifies 1.4998 1 := by
  intro hq
  obtain ⟨-, habs⟩ := hq
  rw [round_14998_one, mkFrac_one_one] at habs
  have hval : (((1 : ℤ) : ℝ) / ((1 : ℤ) : ℝ)) = (1 : ℝ) := by norm_num
  rw [show ((Frac.mk 1 1).num : ℝ) / ((Frac.mk 1 1).den : ℝ)
      = ((1 : ℤ) : ℝ) / ((1 : ℤ) : ℝ) from rfl, hval, div_one] at habs
  have hlogb : 1 / ((2 : ℕ) : ℝ) ≤ Real.logb 2 1.4998 :=
    le_logb_of_pow 1.4998 2 (by norm_num) (by norm_num) (by norm_num)
  rw [cents, CENTS_TOL, abs_le] at habs
  have h600 : (600 : ℝ) ≤ 1200 * Real.logb 2 1.4998 := by
    push_cast at hlogb
    linarith
  linarith [habs.2]

theorem qualifies_14998_two : qualifies 1.4998 2 := by
  constructor
  · rw [round_14998_two]
    norm_num
  · rw [round_14998_two, mkFrac_three_two]
    rw [show ((Frac.mk 3 2).num : ℝ) / ((Frac.mk 3 2).den : ℝ)
        = ((3 : ℤ) : ℝ) / ((2 : ℤ) : ℝ) from rfl]
    have hx : (1.4998 : ℝ) / (((3 : ℤ) : ℝ) / ((2 : ℤ) : ℝ)) = 7499 / 7500 := by
      norm_num
    rw [hx, cents, CENTS_TOL, abs_le]
    have hup : Real.logb 2 ((7499 : ℝ) / 7500) ≤ 0 :=
      Real.logb_nonpos (by norm_num) (by norm_num) (by norm_num)
    have hpow : (1 / 2 : ℝ) ≤ ((7499 : ℝ) / 7500) ^ (200 : ℕ) := by
      have hb := one_add_mul_le_pow
        (show (-2 : ℝ) ≤ -(1 / 7500) by norm_num) 200
      have he : ((1 : ℝ) + -(1 / 7500)) = 7499 / 7500 := by norm_num
      rw [he] at hb
      calc (1 / 2 : ℝ) ≤ 1 + (200 : ℕ) * -(1 / 7500) := by push_cast; norm_num
        _ ≤ ((7499 : ℝ) / 7500) ^ (200 : ℕ) := hb
    have hlo : -(1 / ((200 : ℕ) : ℝ)) ≤ Real.logb 2 ((7499 : ℝ) / 7500) :=
      neg_le_logb_of_pow _ 200 (by norm_num) (by norm_num) hpow
    push_cast at hlo
    constructor
    · linarith
    · linarith

/-- The denominator search on 1.4998 rejects `d = 1` and accepts `d = 2`,
returning the reduced fraction 3/2. -/
theorem bestFrac_14998 : bestFrac 1.4998 = some ⟨3, 2⟩ := by
  rw [bestFrac, MAX_DEN_SEARCH, searchFrac_some_iff]
  refine ⟨2, by omega, by omega, qualifies_14998_two, ?_, ?_⟩
  · intro e he1 he2
    have he : e = 1 := by omega
    subst he
    exact not_qualifies_14998_one
  · rw [round_14998_two]
    decide

/-! ## Additive structure of the accumulation -/

theorem foldl_add_pair {α : Type} (g : α → ℝ × ℝ) :
    ∀ (l : List α) (acc : ℝ × ℝ),
      l.foldl (fun a x => (a.1 + (g x).1, a.2 + (g x).2)) acc =
        (acc.1 + (l.map fun x => (g x).1).sum,
         acc.2 + (l.map fun x => (g x).2).sum) := by
  intro l
  induction l with
  | nil => intro acc; simp
  | cons x xs ih =>
    intro acc
    simp only [List.foldl_cons, List.map_cons, List.sum_cons, ih]
    rw [add_assoc, add_assoc]

theorem pairsOf_short {α : Type} (l : List α) (h : l.length < 2) :
    pairsOf l = [] := by
  match l, h with
  | [], _ => rfl
  | [x], _ => rfl

theorem pairsOf_mem {α : Type} :
    ∀ (l : List α) (pq : α × α), pq ∈ pairsOf l → pq.1 ∈ l ∧ pq.2 ∈ l := by
  intro l
  induction l with
  | nil => intro pq h; simp [pairsOf] at h
  | cons x xs ih =>
    intro pq h
    simp only [pairsOf, List.mem_append, List.mem_map] at h
    rcases h with ⟨y, hy, rfl⟩ | h
    · exact ⟨List.mem_cons_self x xs, List.mem_cons_of_mem x hy⟩
    · obtain ⟨h1, h2⟩ := ih pq h
      exact ⟨List.mem_cons_of_mem x h1, List.mem_cons_of_mem x h2⟩

theorem listMax_eq_zero (l : List ℝ) (h : ∀ x ∈ l, x = 0) : listMax l = 0 := by
  unfold listMax
  induction l with
  | nil => rfl
  | cons x xs ih =>
    have hx : x = 0 := h x (List.mem_cons_self x xs)
    simp only [List.foldl_cons, hx, max_self]
    exact ih fun y hy => h y (List.mem_cons_of_mem x hy)

/-- With a zero frame maximum every weight is `mag[k]/0 = 0`, so the
`w >= MIN_WEIGHT` filter keeps nothing. -/
theorem noteListOf_maxAmp_zero (freqs mag : List ℝ) :
    noteListOf freqs mag 0 = [] := by
  unfold noteListOf rawPeaksOf
  rw [List.filter_eq_nil_iff]
  intro p hp
  simp only [List.mem_map] at hp
  obtain ⟨idx, -, rfl⟩ := hp
  simp only [div_zero, decide_eq_true_eq, ge_iff_le, MIN_WEIGHT]
  norm_num

/-- The frame step always adds exactly the frame's total pair
contributions; every skip branch adds zero. -/
theorem processFrame_eq (freqs hwin : List ℝ) (acc : ℝ × ℝ) (seg : List ℝ) :
    processFrame freqs hwin acc seg =
      (acc.1 + (frameTotals freqs hwin seg).1,
       acc.2 + (frameTotals freqs hwin seg).2) := by
  unfold processFrame frameTotals
  by_cases h1 : ∀ x ∈ magOf hwin seg, x = 0
  · rw [if_pos h1, listMax_eq_zero _ h1, noteListOf_maxAmp_zero]
    simp [pairsOf]
  · rw [if_neg h1]
    by_cases h2 : listMax (magOf hwin seg) = 0
    · rw [if_pos h2, h2, noteListOf_maxAmp_zero]
      simp [pairsOf]
    · rw [if_neg h2]
      by_cases h3 : (noteListOf freqs (magOf hwin seg)
          (listMax (magOf hwin seg))).length < 2
      · rw [if_pos h3, pairsOf_short _ h3]
        simp
      · rw [if_neg h3]
        exact foldl_add_pair (fun pq : Peak × Peak => pairContrib pq.1 pq.2) _ acc

/-- Total contribution of the whole frame loop, as explicit sums over
frames of the per-frame pair sums. -/
def totalContrib (fs : ℕ) (audio : List ℝ) : ℝ × ℝ :=
  (((List.range (frameCountOf fs audio.length)).map fun i =>
      (frameTotals (freqAxis fs (winLenOf fs)) (hanning (winLenOf fs))
        (mkSeg audio (i * strideOf fs) (winLenOf fs))).1).sum,
   ((List.range (frameCountOf fs audio.length)).map fun i =>
      (frameTotals (freqAxis fs (winLenOf fs)) (hanning (winLenOf fs))
        (mkSeg audio (i * strideOf fs) (winLenOf fs))).2).sum)

theorem runPipeline_eq (fs : ℕ) (audio : List ℝ) (h : winLenOf fs ≠ 0) :
    runPipeline fs audio =
      (if (totalContrib fs audio).2 = 0 then some none
       else some (some (10 * (1 / ((totalContrib fs audio).1 /
         (totalContrib fs audio).2))))) := by
  unfold runPipeline
  rw [if_neg h]
  dsimp only
  have hfold : (List.range (frameCountOf fs audio.length)).foldl
      (fun a i => processFrame (freqAxis fs (winLenOf fs))
        (hanning (winLenOf fs)) a (mkSeg audio (i * strideOf fs) (winLenOf fs)))
      (0, 0) = totalContrib fs audio := by
    have hstep : (fun (a : ℝ × ℝ) (i : ℕ) => processFrame (freqAxis fs (winLenOf fs))
        (hanning (winLenOf fs)) a (mkSeg audio (i * strideOf fs) (winLenOf fs))) =
        fun a i =>
          (a.1 + ((fun j => frameTotals (freqAxis fs (winLenOf fs))
              (hanning (winLenOf fs)) (mkSeg audio (j * strideOf fs) (winLenOf fs))) i).1,
           a.2 + ((fun j => frameTotals (freqAxis fs (winLenOf fs))
              (hanning (winLenOf fs)) (mkSeg audio (j * strideOf fs) (winLenOf fs))) i).2) := by
      funext a i
      exact processFrame_eq _ _ _ _
    rw [hstep, foldl_add_pair]
    simp [totalContrib]
  rw [hfold]

/-! ## Positivity invariants of the accumulation -/

/-- Any fraction accepted for a nonnegative raw ratio has numerator and
denominator at least 1. -/
theorem bestFrac_num_den_pos (r : ℝ) (hr : 0 ≤ r) (f : Frac)
    (h : bestFrac r = some f) : 1 ≤ f.num ∧ 1 ≤ f.den := by
  rw [bestFrac, MAX_DEN_SEARCH, searchFrac_some_iff] at h
  obtain ⟨d, hd1, -, ⟨hne, -⟩, -, rfl⟩ := h
  have hnn : 0 ≤ round (r * (d : ℕ)) := by
    rw [round_eq]
    refine Int.floor_nonneg.2 ?_
    have : 0 ≤ r * (d : ℕ) := mul_nonneg hr (by positivity)
    linarith
  have h1 : 1 ≤ round (r * (d : ℕ)) := by omega
  have hdz : 1 ≤ ((d : ℕ) : ℤ) := by exact_mod_cast hd1
  exact mkFrac_pos _ _ h1 hdz

theorem pairContrib_snd_nonneg (p q : Peak) : 0 ≤ (pairContrib p q).2 := by
  unfold pairContrib
  by_cases h : p.note = q.note
  · rw [if_pos h]
  · rw [if_neg h]
    by_cases hf : p.freq ≥ q.freq
    · rw [if_pos hf]
      dsimp only
      rcases hbf : bestFrac (p.freq / q.freq) with - | frac
      · exact le_refl 0
      · exact Real.sqrt_nonneg _
    · rw [if_neg hf]
      dsimp only
      rcases hbf : bestFrac (q.freq / p.freq) with - | frac
      · exact le_refl 0
      · exact Real.sqrt_nonneg _

theorem pairContrib_fst_ge (p q : Peak) (hp : 0 ≤ p.freq) (hq : 0 ≤ q.freq) :
    2 * (pairContrib p q).2 ≤ (pairContrib p q).1 := by
  unfold pairContrib
  by_cases h : p.note = q.note
  · rw [if_pos h]
    norm_num
  · rw [if_neg h]
    by_cases hf : p.freq ≥ q.freq
    · rw [if_pos hf]
      dsimp only
      rcases hbf : bestFrac (p.freq / q.freq) with - | frac
      · norm_num
      · obtain ⟨hn1, hd1⟩ := bestFrac_num_den_pos _ (div_nonneg hp hq) _ hbf
        have hc : (2 : ℝ) ≤ ((frac.num + frac.den : ℤ) : ℝ) := by
          exact_mod_cast by omega
        have hs : 0 ≤ Real.sqrt (p.weight * q.weight) := Real.sqrt_nonneg _
        show 2 * Real.sqrt (p.weight * q.weight) ≤
          Real.sqrt (p.weight * q.weight) * ((frac.num + frac.den : ℤ) : ℝ)
        nlinarith
    · rw [if_neg hf]
      dsimp only
      rcases hbf : bestFrac (q.freq / p.freq) with - | frac
      · norm_num
      · obtain ⟨hn1, hd1⟩ := bestFrac_num_den_pos _ (div_nonneg hq hp) _ hbf
        have hc : (2 : ℝ) ≤ ((frac.num + frac.den : ℤ) : ℝ) := by
          exact_mod_cast by omega
        have hs : 0 ≤ Real.sqrt (q.weight * p.weight) := Real.sqrt_nonneg _
        show 2 * Real.sqrt (q.weight * p.weight) ≤
          Real.sqrt (q.weight * p.weight) * ((frac.num + frac.den : ℤ) : ℝ)
        nlinarith

theorem getD_nonneg (l : List ℝ) (i : ℕ) (h : ∀ x ∈ l, 0 ≤ x) :
    0 ≤ l.getD i 0 := by
  rcases lt_or_ge i l.length with hi | hi
  · rw [List.getD_eq_getElem l 0 hi]
    exact h _ (List.getElem_mem hi)
  · rw [List.getD_eq_default l 0 hi]

theorem freqAxis_nonneg (fs winLen : ℕ) : ∀ x ∈ freqAxis fs winLen, 0 ≤ x := by
  intro x hx
  simp only [freqAxis, List.mem_map] at hx
  obtain ⟨k, -, rfl⟩ := hx
  refine mul_nonneg (Nat.cast_nonneg k) ?_
  refine one_div_nonneg.2 (mul_nonneg (Nat.cast_nonneg _) ?_)
  exact one_div_nonneg.2 (Nat.cast_nonneg _)

theorem noteListOf_freq_nonneg (freqs mag : List ℝ) (maxAmp : ℝ)
    (hf : ∀ x ∈ freqs, 0 ≤ x) :
    ∀ p ∈ noteListOf freqs mag maxAmp, 0 ≤ p.freq := by
  intro p hp
  have hp' : p ∈ rawPeaksOf freqs mag maxAmp := List.mem_of_mem_filter hp
  simp only [rawPeaksOf, List.mem_map] at hp'
  obtain ⟨idx, -, rfl⟩ := hp'
  exact getD_nonneg freqs idx hf

theorem frameTotals_snd_nonneg (freqs hwin seg : List ℝ) :
    0 ≤ (frameTotals freqs hwin seg).2 := by
  refine List.sum_nonneg ?_
  intro x hx
  simp only [List.mem_map] at hx
  obtain ⟨pq, -, rfl⟩ := hx
  exact pairContrib_snd_nonneg pq.1 pq.2

theorem frameTotals_fst_ge (freqs hwin seg : List ℝ)
    (hf : ∀ x ∈ freqs, 0 ≤ x) :
    2 * (frameTotals freqs hwin seg).2 ≤ (frameTotals freqs hwin seg).1 := by
  unfold frameTotals
  dsimp only
  rw [← List.sum_map_mul_left]
  refine List.sum_le_sum ?_
  intro pq hpq
  obtain ⟨h1, h2⟩ := pairsOf_mem _ pq hpq
  exact pairContrib_fst_ge pq.1 pq.2
    (noteListOf_freq_nonneg _ _ _ hf _ h1)
    (noteListOf_freq_nonneg _ _ _ hf _ h2)

/-! ## Silence and skipped frames -/

/-- A frame whose magnitude spectrum is all zeros is skipped: the
accumulators are unchanged. -/
theorem processFrame_zero_mag (freqs hwin : List ℝ) (acc : ℝ × ℝ)
    (seg : List ℝ) (h : ∀ x ∈ magOf hwin seg, x = 0) :
    processFrame freqs hwin acc seg = acc := by
  unfold processFrame
  rw [if_pos h]

theorem getD_eq_zero (l : List ℝ) (i : ℕ) (h : ∀ x ∈ l, x = 0) :
    l.getD i 0 = 0 := by
  rcases lt_or_ge i l.length with hi | hi
  · rw [List.getD_eq_getElem l 0 hi]
    exact h _ (List.getElem_mem hi)
  · rw [List.getD_eq_default l 0 hi]

theorem rfftMag_zero (x : List ℝ) (h : ∀ y ∈ x, y = 0) :
    ∀ m ∈ rfftMag x, m = 0 := by
  intro m hm
  simp only [rfftMag, List.mem_map] at hm
  obtain ⟨k, -, rfl⟩ := hm
  have hz : ∀ n ∈ Finset.range x.length,
      (x.getD n 0 : ℂ) *
        Complex.exp (-(2 * Real.pi * Complex.I * k * n) / x.length) = 0 := by
    intro n _
    rw [getD_eq_zero x n h]
    simp
  rw [Finset.sum_congr rfl hz, Finset.sum_const_zero, map_zero]

theorem zipWith_mul_zero :
    ∀ (seg hwin : List ℝ), (∀ x ∈ seg, x = 0) →
      ∀ z ∈ List.zipWith (· * ·) seg hwin, z = 0 := by
  intro seg
  induction seg with
  | nil => intro hwin _ z hz; simp at hz
  | cons s ss ih =>
    intro hwin h z hz
    cases hwin with
    | nil => simp at hz
    | cons w ws =>
      simp only [List.zipWith_cons_cons, List.mem_cons] at hz
      rcases hz with rfl | hz
      · rw [h s (List.mem_cons_self s ss), zero_mul]
      · exact ih ws (fun x hx => h x (List.mem_cons_of_mem s hx)) z hz

theorem mkSeg_zero (n start winLen : ℕ) :
    ∀ x ∈ mkSeg (List.replicate n (0 : ℝ)) start winLen, x = 0 := by
  intro x hx
  simp only [mkSeg, List.mem_append] at hx
  rcases hx with hx | hx
  · exact List.eq_of_mem_replicate
      (List.mem_of_mem_drop (List.mem_of_mem_take hx))
  · exact List.eq_of_mem_replicate hx

theorem frameTotals_zero_seg (freqs hwin seg : List ℝ)
    (h : ∀ x ∈ seg, x = 0) : frameTotals freqs hwin seg = (0, 0) := by
  have hmag : ∀ m ∈ magOf hwin seg, m = 0 :=
    rfftMag_zero _ (zipWith_mul_zero seg hwin h)
  unfold frameTotals
  rw [listMax_eq_zero _ hmag, noteListOf_maxAmp_zero]
  simp [pairsOf]

theorem foldl_processFrame_eq (freqs hwin : List ℝ) (segf : ℕ → List ℝ)
    (l : List ℕ) (acc : ℝ × ℝ) :
    l.foldl (fun a i => processFrame freqs hwin a (segf i)) acc =
      (acc.1 + (l.map fun i => (frameTotals freqs hwin (segf i)).1).sum,
       acc.2 + (l.map fun i => (frameTotals freqs hwin (segf i)).2).sum) := by
  have hstep : (fun (a : ℝ × ℝ) (i : ℕ) => processFrame freqs hwin a (segf i)) =
      fun a i =>
        (a.1 + ((fun j => frameTotals freqs hwin (segf j)) i).1,
         a.2 + ((fun j => frameTotals freqs hwin (segf j)) i).2) := by
    funext a i
    exact processFrame_eq _ _ _ _
  rw [hstep, foldl_add_pair]

/-- The invariant `totalWeightedComplexity ≥ 2 * totalWeight ≥ 0` holds
after every prefix of the frame loop. -/
theorem accumAfter_inv (fs : ℕ) (audio : List ℝ) (k : ℕ) :
    0 ≤ (accumAfter fs audio k).2 ∧
    2 * (accumAfter fs audio k).2 ≤ (accumAfter fs audio k).1 := by
  have he : accumAfter fs audio k =
      ((0 : ℝ) + (((List.range (frameCountOf fs audio.length)).take k).map fun i =>
          (frameTotals (freqAxis fs (winLenOf fs)) (hanning (winLenOf fs))
            (mkSeg audio (i * strideOf fs) (winLenOf fs))).1).sum,
       (0 : ℝ) + (((List.range (frameCountOf fs audio.length)).take k).map fun i =>
          (frameTotals (freqAxis fs (winLenOf fs)) (hanning (winLenOf fs))
            (mkSeg audio (i * strideOf fs) (winLenOf fs))).2).sum) :=
    foldl_processFrame_eq _ _ _ _ _
  rw [he]
  simp only [zero_add]
  constructor
  · refine List.sum_nonneg ?_
    intro x hx
    simp only [List.mem_map] at hx
    obtain ⟨i, -, rfl⟩ := hx
    exact frameTotals_snd_nonneg _ _ _
  · rw [← List.sum_map_mul_left]
    refine List.sum_le_sum ?_
    intro i _
    exact frameTotals_fst_ge _ _ _ (freqAxis_nonneg fs (winLenOf fs))

theorem totalContrib_snd_nonneg (fs : ℕ) (audio : List ℝ) :
    0 ≤ (totalContrib fs audio).2 := by
  refine List.sum_nonneg ?_
  intro x hx
  simp only [List.mem_map] at hx
  obtain ⟨i, -, rfl⟩ := hx
  exact frameTotals_snd_nonneg _ _ _

theorem totalContrib_fst_ge (fs : ℕ) (audio : List ℝ) :
    2 * (totalContrib fs audio).2 ≤ (totalContrib fs audio).1 := by
  unfold totalContrib
  dsimp only
  rw [← List.sum_map_mul_left]
  refine List.sum_le_sum ?_
  intro i _
  exact frameTotals_fst_ge _ _ _ (freqAxis_nonneg fs (winLenOf fs))

/-- On silence the loop accumulates nothing and the pipeline reports the
undefined-score sentinel. -/
theorem runPipeline_silence (fs n : ℕ) (h : winLenOf fs ≠ 0) :
    runPipeline fs (List.replicate n (0 : ℝ)) = some none := by
  rw [runPipeline_eq fs _ h]
  have h2 : (totalContrib fs (List.replicate n (0 : ℝ))).2 = 0 := by
    unfold totalContrib
    dsimp only
    refine List.sum_eq_zero ?_
    intro x hx
    simp only [List.mem_map] at hx
    obtain ⟨i, -, rfl⟩ := hx
    rw [frameTotals_zero_seg _ _ _ (mkSeg_zero n _ _)]
  rw [if_pos h2]

/-! ## Note naming -/

theorem emod_twelve_lt (idx : ℤ) : (idx % 12).toNat < 12 := by
  have h1 : 0 ≤ idx % 12 := Int.emod_nonneg idx (by norm_num)
  have h2 : idx % 12 < 12 := Int.emod_lt_of_pos idx (by norm_num)
  omega

/-- `freq_to_note` never raises: the pitch-class index is always in
bounds, so the list access succeeds for every frequency. -/
theorem freq_to_note_isSome (freq : ℝ) : (freq_to_note freq).isSome := by
  unfold freq_to_note
  by_cases h : freq ≤ 0
  · rw [if_pos h]
    rfl
  · rw [if_neg h]
    dsimp only
    have hlt := emod_twelve_lt (round (69 + 12 * Real.logb 2 (freq / 440)))
    have hlen : NOTE_NAMES.length = 12 := rfl
    rw [List.get?_eq_get (show (round (69 + 12 * Real.logb 2 (freq / 440)) % 12).toNat
      < NOTE_NAMES.length by omega)]
    rfl

theorem round_semitone_440 : round (69 + 12 * Real.logb 2 ((440 : ℝ) / 440)) = 69 := by
  have h : (440 : ℝ) / 440 = 1 := by norm_num
  rw [h, Real.logb_one, round_eq]
  norm_num

theorem round_semitone_441 : round (69 + 12 * Real.logb 2 ((441 : ℝ) / 440)) = 69 := by
  have h1 : 0 ≤ Real.logb 2 ((441 : ℝ) / 440) :=
    Real.logb_nonneg (by norm_num) (by norm_num)
  have h2 : Real.logb 2 ((441 : ℝ) / 440) < 1 / 24 := by
    have := logb_lt_of_pow_lt ((441 : ℝ) / 440) 24 (by norm_num) (by norm_num)
      (by norm_num)
    push_cast at this
    linarith
  rw [round_eq]
  apply Int.floor_eq_iff.2
  constructor
  · push_cast
    linarith
  · push_cast
    linarith

theorem freq_to_note_440 : freq_to_note 440 = some "A4" := by
  unfold freq_to_note
  rw [if_neg (by norm_num)]
  dsimp only
  rw [round_semitone_440]
  rfl

theorem freq_to_note_441 : freq_to_note 441 = some "A4" := by
  unfold freq_to_note
  rw [if_neg (by norm_num)]
  dsimp only
  rw [round_semitone_441]
  rfl

/-! ## Peak-detection characterisation -/

theorem rawPeakIdxs_mem (mag : List ℝ) (maxAmp : ℝ) (k : ℕ) :
    k ∈ rawPeakIdxs mag maxAmp ↔
      (1 ≤ k ∧ k + 1 < mag.length ∧
       MIN_REL_AMP * maxAmp ≤ mag.getD k 0 ∧
       mag.getD (k - 1) 0 ≤ mag.getD k 0 ∧
       mag.getD (k + 1) 0 ≤ mag.getD k 0) := by
  unfold rawPeakIdxs
  rw [List.mem_filter, List.mem_range'_1]
  simp only [decide_eq_true_eq, not_lt, not_or]
  constructor
  · rintro ⟨⟨h1, h2⟩, h3, h4, h5⟩
    exact ⟨h1, by omega, h3, h4, h5⟩
  · rintro ⟨h1, h2, h3, h4, h5⟩
    exact ⟨⟨h1, by omega⟩, h3, h4, h5⟩

theorem noteListOf_mem (freqs mag : List ℝ) (maxAmp : ℝ) (p : Peak) :
    p ∈ noteListOf freqs mag maxAmp ↔
      p ∈ rawPeaksOf freqs mag maxAmp ∧ MIN_WEIGHT ≤ p.weight := by
  unfold noteListOf
  rw [List.mem_filter]
  simp only [decide_eq_true_eq, ge_iff_le]

theorem rawPeaksOf_weights (freqs mag : List ℝ) (maxAmp : ℝ) :
    (rawPeaksOf freqs mag maxAmp).map Peak.weight =
      (rawPeakIdxs mag maxAmp).map fun k => mag.getD k 0 / maxAmp := by
  unfold rawPeaksOf
  rw [List.map_map]
  rfl

theorem processFrame_fewPeaks (freqs hwin : List ℝ) (acc : ℝ × ℝ)
    (seg : List ℝ)
    (h : (noteListOf freqs (magOf hwin seg) (listMax (magOf hwin seg))).length < 2) :
    processFrame freqs hwin acc seg = acc := by
  unfold processFrame
  by_cases g1 : ∀ x ∈ magOf hwin seg, x = 0
  · rw [if_pos g1]
  · rw [if_neg g1]
    by_cases g2 : listMax (magOf hwin seg) = 0
    · rw [if_pos g2]
    · rw [if_neg g2, if_pos h]

/-! ## Spectrum lengths -/

theorem hanning_length (M : ℕ) : (hanning M).length = M := by
  unfold hanning
  by_cases h0 : M = 0
  · rw [if_pos h0, h0]
    rfl
  · rw [if_neg h0]
    by_cases h1 : M = 1
    · rw [if_pos h1, h1]
      rfl
    · rw [if_neg h1, List.length_map, List.length_range]

theorem rfftMag_length (x : List ℝ) : (rfftMag x).length = x.length / 2 + 1 := by
  unfold rfftMag
  rw [List.length_map, List.length_range]

theorem magOf_length (hwin seg : List ℝ) (h : hwin.length = seg.length) :
    (magOf hwin seg).length = seg.length / 2 + 1 := by
  unfold magOf
  rw [rfftMag_length, List.length_zipWith, h, min_self]

/-! ## Claim theorems -/

/-- **C1**  The interval scorer accepts, for a raw ratio `r`, exactly the
fraction `n/d` for the smallest denominator `d` in `1..MAX_DEN_SEARCH`
such that `n = round(r*d)` is nonzero and
`|1200 * log2(r / (n/d))| ≤ CENTS_TOL`, and discards the pair when no such
`d` exists; in particular for `r = 1.4998` the search selects `d = 2`,
`n = 3` (the reduced fraction 3/2). -/
theorem claim_C1 :
    (∀ (r : ℝ) (d : ℕ), 1 ≤ d →
      (qualifies r d ↔
        (round (r * (d : ℕ)) ≠ 0 ∧
         |cents (r / ((round (r * (d : ℕ)) : ℝ) / ((d : ℕ) : ℝ)))| ≤ CENTS_TOL))) ∧
    (∀ r : ℝ,
      (bestFrac r = none ↔
        ∀ d, 1 ≤ d → d ≤ MAX_DEN_SEARCH → ¬ qualifies r d) ∧
      (∀ f, bestFrac r = some f ↔
        ∃ d, 1 ≤ d ∧ d ≤ MAX_DEN_SEARCH ∧ qualifies r d ∧
          (∀ e, 1 ≤ e → e < d → ¬ qualifies r e) ∧
          f = mkFrac (round (r * (d : ℕ))) (d : ℕ))) ∧
    bestFrac 1.4998 = some ⟨3, 2⟩ := by
  refine ⟨?_, ?_, bestFrac_14998⟩
  · intro r d hd
    have hdz : ((d : ℕ) : ℤ) ≠ 0 := by
      exact_mod_cast (by omega : d ≠ 0)
    unfold qualifies
    rw [mkFrac_val _ _ hdz, Int.cast_natCast]
  · intro r
    have h32 : MAX_DEN_SEARCH = 32 := rfl
    constructor
    · rw [bestFrac, MAX_DEN_SEARCH, searchFrac_none_iff]
      constructor
      · intro h d h1 h2
        exact h d h1 (by omega)
      · intro h d h1 h2
        exact h d h1 (by omega)
    · intro f
      rw [bestFrac, MAX_DEN_SEARCH, searchFrac_some_iff]
      constructor
      · rintro ⟨d, h1, h2, h3, h4, h5⟩
        exact ⟨d, h1, by omega, h3, h4, h5⟩
      · rintro ⟨d, h1, h2, h3, h4, h5⟩
        exact ⟨d, h1, by omega, h3, h4, h5⟩

/-- Witness for C1 at the concrete denominator `d = 2`. -/
theorem claim_C1_witness :
    1 ≤ 2 ∧
    (qualifies 1.4998 2 ↔
      (round ((1.4998 : ℝ) * ((2 : ℕ) : ℝ)) ≠ 0 ∧
       |cents (1.4998 / ((round ((1.4998 : ℝ) * ((2 : ℕ) : ℝ)) : ℝ) /
         ((2 : ℕ) : ℝ)))| ≤ CENTS_TOL)) :=
  ⟨by omega, claim_C1.1 1.4998 2 (by omega)⟩

/-- **C2**  Each accepted pair adds `relevance * complexity` and
`relevance` to the two accumulators, with
`relevance = sqrt(weightHigh * weightLow)` and
`complexity = reduced numerator + reduced denominator`; at the end of a
run whose window is nonempty, a zero total weight yields the NaN sentinel
(`some none`) without raising, and otherwise the score
`10 / (totalWeightedComplexity / totalWeight)` is returned. -/
theorem claim_C2 (fs : ℕ) (audio : List ℝ) (hw : winLenOf fs ≠ 0) :
    (∀ (p q : Peak) (f : Frac), ¬ p.note = q.note → p.freq ≥ q.freq →
      bestFrac (p.freq / q.freq) = some f →
      pairContrib p q =
        (Real.sqrt (p.weight * q.weight) * ((f.num + f.den : ℤ) : ℝ),
         Real.sqrt (p.weight * q.weight))) ∧
    runPipeline fs audio =
      (if (totalContrib fs audio).2 = 0 then some none
       else some (some (10 / ((totalContrib fs audio).1 /
         (totalContrib fs audio).2)))) := by
  constructor
  · intro p q f hne hf hbf
    unfold pairContrib
    rw [if_neg hne, if_pos hf]
    dsimp only
    rw [hbf]
  · rw [runPipeline_eq fs audio hw]
    simp only [mul_one_div]

/-- Witness for C2 on a 4 Hz empty recording. -/
theorem claim_C2_witness :
    winLenOf 4 ≠ 0 ∧
    runPipeline 4 [] =
      (if (totalContrib 4 []).2 = 0 then some none
       else some (some (10 / ((totalContrib 4 []).1 / (totalContrib 4 []).2)))) := by
  have hw : winLenOf 4 ≠ 0 := by
    rw [winLenOf_eq]
    decide
  exact ⟨hw, (claim_C2 4 [] hw).2⟩

/-- **C3**  A bin `k` (with `0 < k < lastBin`) is a candidate peak iff its
magnitude is at least `MIN_REL_AMP * maxAmp` and at least both
neighbours (ties included); candidates carry weight `mag[k]/maxAmp`; the
qualifying set is exactly the candidates with weight `≥ MIN_WEIGHT`; a
frame with fewer than two qualifying peaks contributes no intervals. -/
theorem claim_C3 (freqs mag : List ℝ) (maxAmp : ℝ) (_hpos : 0 < maxAmp) :
    (∀ k, k ∈ rawPeakIdxs mag maxAmp ↔
      (1 ≤ k ∧ k + 1 < mag.length ∧
       MIN_REL_AMP * maxAmp ≤ mag.getD k 0 ∧
       mag.getD (k - 1) 0 ≤ mag.getD k 0 ∧
       mag.getD (k + 1) 0 ≤ mag.getD k 0)) ∧
    ((rawPeaksOf freqs mag maxAmp).map Peak.weight =
      (rawPeakIdxs mag maxAmp).map fun k => mag.getD k 0 / maxAmp) ∧
    (∀ p, p ∈ noteListOf freqs mag maxAmp ↔
      p ∈ rawPeaksOf freqs mag maxAmp ∧ MIN_WEIGHT ≤ p.weight) ∧
    (∀ (hwin : List ℝ) (acc : ℝ × ℝ) (seg : List ℝ),
      (noteListOf freqs (magOf hwin seg) (listMax (magOf hwin seg))).length < 2 →
      processFrame freqs hwin acc seg = acc) :=
  ⟨rawPeakIdxs_mem mag maxAmp,
   rawPeaksOf_weights freqs mag maxAmp,
   noteListOf_mem freqs mag maxAmp,
   fun hwin acc seg h => processFrame_fewPeaks freqs hwin acc seg h⟩

/-- Witness for C3 on the spectrum `[0, 1, 0]` with frame maximum 1. -/
theorem claim_C3_witness :
    (0 : ℝ) < 1 ∧
    (1 ∈ rawPeakIdxs [0, 1, 0] 1 ↔
      (1 ≤ 1 ∧ 1 + 1 < ([0, 1, 0] : List ℝ).length ∧
       MIN_REL_AMP * 1 ≤ ([0, 1, 0] : List ℝ).getD 1 0 ∧
       ([0, 1, 0] : List ℝ).getD 0 0 ≤ ([0, 1, 0] : List ℝ).getD 1 0 ∧
       ([0, 1, 0] : List ℝ).getD 2 0 ≤ ([0, 1, 0] : List ℝ).getD 1 0)) :=
  ⟨by norm_num, (claim_C3 [] [0, 1, 0] 1 (by norm_num)).1 1⟩

/-- **C4**  A pair of qualifying peaks with equal note names contributes
nothing; in particular 440 Hz and 441 Hz both map to the label "A4", so
such a pair is skipped entirely. -/
theorem claim_C4 :
    (∀ p q : Peak, p.note = q.note → pairContrib p q = (0, 0)) ∧
    freq_to_note 440 = some "A4" ∧ freq_to_note 441 = some "A4" := by
  refine ⟨?_, freq_to_note_440, freq_to_note_441⟩
  intro p q h
  unfold pairContrib
  rw [if_pos h]

/-- Witness for C4: two peaks at 440 Hz and 441 Hz, both named "A4". -/
theorem claim_C4_witness :
    pairContrib ⟨440, freq_to_note 440, 1⟩ ⟨441, freq_to_note 441, 1 / 2⟩ =
      (0, 0) :=
  claim_C4.1 _ _ (by rw [freq_to_note_440, freq_to_note_441])

/-- **C5 (counterexample)**  The claim says the Framer uses
`windowLength = round(sampleRate * windowSeconds)` and
`strideLength = round(sampleRate / framesPerSecond)`; at `sampleRate = 6`
the code (`int(...)`, i.e. truncation) gives 1 for both, while rounding
gives 2. -/
theorem claim_C5_counterexample :
    winLenOf 6 = 1 ∧ (round ((6 : ℝ) * WINDOW_SEC)).toNat = 2 ∧
    winLenOf 6 ≠ (round ((6 : ℝ) * WINDOW_SEC)).toNat ∧
    strideOf 6 = 1 ∧ (round ((6 : ℝ) / ((FPS : ℕ) : ℝ))).toNat = 2 ∧
    strideOf 6 ≠ (round ((6 : ℝ) / ((FPS : ℕ) : ℝ))).toNat := by
  have hws : WINDOW_SEC = 0.25 := rfl
  have hf : (FPS : ℕ) = 4 := rfl
  have h1 : winLenOf 6 = 1 := by
    rw [winLenOf_eq]
  have h2 : (round ((6 : ℝ) * WINDOW_SEC)).toNat = 2 := by
    rw [hws, round_eq]
    norm_num
    rfl
  have h3 : strideOf 6 = 1 := by
    rw [strideOf_eq]
  have h4 : (round ((6 : ℝ) / ((FPS : ℕ) : ℝ))).toNat = 2 := by
    rw [hf, round_eq]
    norm_num
    rfl
  exact ⟨h1, h2, by omega, h3, h4, by omega⟩

/-- **C5 (amended)**  The Framer uses
`windowLength = floor(sampleRate * windowSeconds)` (= `sampleRate / 4`
with the defaults) and `strideLength = floor(sampleRate / framesPerSecond)`
(also `sampleRate / 4`), processes exactly
`floor(totalSamples / sampleRate * framesPerSecond)` frames, and frame `i`
consists of `windowLength` samples starting at `i * strideLength`,
right-zero-padded past the end of the buffer. -/
theorem claim_C5 (fs : ℕ) (audio : List ℝ) (i j : ℕ) (hj : j < winLenOf fs) :
    winLenOf fs = fs / 4 ∧ strideOf fs = fs / 4 ∧
    frameCountOf fs audio.length = 4 * audio.length / fs ∧
    (mkSeg audio (i * strideOf fs) (winLenOf fs)).length = winLenOf fs ∧
    (mkSeg audio (i * strideOf fs) (winLenOf fs)).getD j 0 =
      (if i * strideOf fs + j < audio.length
       then audio.getD (i * strideOf fs + j) 0 else 0) :=
  ⟨winLenOf_eq fs, strideOf_eq fs, frameCountOf_eq fs audio.length,
   mkSeg_length audio _ _, mkSeg_getD audio _ _ j hj⟩

/-- Witness for the amended C5 at `fs = 8`, frame 0, offset 1. -/
theorem claim_C5_witness :
    1 < winLenOf 8 ∧
    (winLenOf 8 = 8 / 4 ∧ strideOf 8 = 8 / 4 ∧
     frameCountOf 8 ([(5 : ℝ)] : List ℝ).length = 4 * ([(5 : ℝ)] : List ℝ).length / 8 ∧
     (mkSeg [(5 : ℝ)] (0 * strideOf 8) (winLenOf 8)).length = winLenOf 8 ∧
     (mkSeg [(5 : ℝ)] (0 * strideOf 8) (winLenOf 8)).getD 1 0 =
       (if 0 * strideOf 8 + 1 < ([(5 : ℝ)] : List ℝ).length
        then ([(5 : ℝ)] : List ℝ).getD (0 * strideOf 8 + 1) 0 else 0)) := by
  have h : 1 < winLenOf 8 := by
    rw [winLenOf_eq]
    decide
  exact ⟨h, claim_C5 8 [(5 : ℝ)] 0 1 h⟩

/-- **C6**  A buffer shorter than one window is zero-padded: the single
frame is the buffer followed by zeros, has full window length, its
spectrum has `windowLength/2 + 1` bins, and the pipeline completes
without failing (returning the undefined sentinel, as no frame fits). -/
theorem claim_C6 (fs : ℕ) (audio : List ℝ) (h : audio.length < winLenOf fs) :
    mkSeg audio 0 (winLenOf fs) =
      audio ++ List.replicate (winLenOf fs - audio.length) 0 ∧
    (mkSeg audio 0 (winLenOf fs)).length = winLenOf fs ∧
    (magOf (hanning (winLenOf fs)) (mkSeg audio 0 (winLenOf fs))).length =
      winLenOf fs / 2 + 1 ∧
    runPipeline fs audio = some none := by
  refine ⟨mkSeg_short audio _ h, mkSeg_length audio 0 _, ?_, ?_⟩
  · have hlen : (magOf (hanning (winLenOf fs)) (mkSeg audio 0 (winLenOf fs))).length =
        (mkSeg audio 0 (winLenOf fs)).length / 2 + 1 :=
      magOf_length _ _ (by rw [hanning_length, mkSeg_length])
    rw [hlen, mkSeg_length]
  · have hw : winLenOf fs ≠ 0 := by omega
    have hfs : 4 * (audio.length + 1) ≤ fs := by
      have h' : audio.length + 1 ≤ fs / 4 := by
        rw [winLenOf_eq] at h
        omega
      have := (Nat.le_div_iff_mul_le (by norm_num : 0 < 4)).1 h'
      omega
    have hfc : frameCountOf fs audio.length = 0 := by
      rw [frameCountOf_eq]
      exact Nat.div_eq_of_lt (by omega)
    rw [runPipeline_eq fs audio hw]
    have hT : (totalContrib fs audio).2 = 0 := by
      unfold totalContrib
      dsimp only
      rw [hfc]
      simp
    rw [if_pos hT]

/-- Witness for C6: one sample at 8 Hz (window length 2). -/
theorem claim_C6_witness :
    ([(1 : ℝ)] : List ℝ).length < winLenOf 8 ∧
    runPipeline 8 [(1 : ℝ)] = some none := by
  have h : ([(1 : ℝ)] : List ℝ).length < winLenOf 8 := by
    rw [winLenOf_eq]
    decide
  exact ⟨h, (claim_C6 8 [(1 : ℝ)] h).2.2.2⟩

/-- **C7**  For positive frequencies the note label is
`NOTE_NAMES[semitone mod 12] ++ str(semitone div 12 - 1)` with
`semitone = round(69 + 12*log2(freq/440))`; non-positive frequencies map
to the sentinel label; the function never raises (the list access always
succeeds). -/
theorem claim_C7 (freq : ℝ) :
    (0 < freq → freq_to_note freq =
      some (NOTE_NAMES.getD
          ((round (69 + 12 * Real.logb 2 (freq / 440)) % 12).toNat) "" ++
        toString (round (69 + 12 * Real.logb 2 (freq / 440)) / 12 - 1))) ∧
    (freq ≤ 0 → freq_to_note freq = some "—") ∧
    (freq_to_note freq).isSome := by
  refine ⟨?_, ?_, freq_to_note_isSome freq⟩
  · intro h
    unfold freq_to_note
    rw [if_neg (not_le.2 h)]
    dsimp only
    have hlt : (round (69 + 12 * Real.logb 2 (freq / 440)) % 12).toNat <
        NOTE_NAMES.length :=
      emod_twelve_lt _
    rw [List.get?_eq_get hlt]
    simp only [Option.map_some']
    rw [List.get_eq_getElem, List.getD_eq_getElem NOTE_NAMES "" hlt]
  · intro h
    unfold freq_to_note
    rw [if_pos h]

/-- Witness for C7 at 440 Hz. -/
theorem claim_C7_witness :
    0 < (440 : ℝ) ∧
    freq_to_note 440 =
      some (NOTE_NAMES.getD
          ((round (69 + 12 * Real.logb 2 ((440 : ℝ) / 440)) % 12).toNat) "" ++
        toString (round (69 + 12 * Real.logb 2 ((440 : ℝ) / 440)) / 12 - 1)) :=
  ⟨by norm_num, (claim_C7 440).1 (by norm_num)⟩

/-- **C8 (counterexample)**  A valid 1 Hz PCM input with one sample makes
the setup compute `win_len = int(1 * 0.25) = 0`, and
`np.fft.rfftfreq(0, 1/fs)` divides by zero: the run ends in an uncaught
exception (`none` in the model), not in a score or the NaN sentinel. -/
theorem claim_C8_counterexample : runPipeline 1 [(0 : ℝ)] = none := by
  have h : winLenOf 1 = 0 := by
    rw [winLenOf_eq]
  unfold runPipeline
  rw [if_pos h]

/-- **C8 (amended)**  For every input whose sample rate gives a nonempty
analysis window (`winLenOf fs ≠ 0`, i.e. at least 4 Hz), the pipeline
completes and returns either the NaN sentinel or a nonnegative score —
never a negative value and never an unhandled fault. -/
theorem claim_C8 (fs : ℕ) (audio : List ℝ) (hw : winLenOf fs ≠ 0) :
    ∃ r : Option ℝ, runPipeline fs audio = some r ∧
      ∀ s : ℝ, r = some s → 0 ≤ s := by
  rw [runPipeline_eq fs audio hw]
  by_cases h : (totalContrib fs audio).2 = 0
  · rw [if_pos h]
    exact ⟨none, rfl, fun s hs => by cases hs⟩
  · rw [if_neg h]
    refine ⟨some (10 * (1 / ((totalContrib fs audio).1 /
      (totalContrib fs audio).2))), rfl, ?_⟩
    intro s hs
    rw [(Option.some_inj.1 hs).symm]
    have h2 := totalContrib_snd_nonneg fs audio
    have hge := totalContrib_fst_ge fs audio
    have h1 : 0 ≤ (totalContrib fs audio).1 := by linarith
    have hd : 0 ≤ (totalContrib fs audio).1 / (totalContrib fs audio).2 :=
      div_nonneg h1 h2
    have := one_div_nonneg.2 hd
    linarith

/-- Witness for the amended C8 on an empty 4 Hz recording. -/
theorem claim_C8_witness :
    winLenOf 4 ≠ 0 ∧
    ∃ r : Option ℝ, runPipeline 4 [] = some r ∧
      ∀ s : ℝ, r = some s → 0 ≤ s := by
  have hw : winLenOf 4 ≠ 0 := by
    rw [winLenOf_eq]
    decide
  exact ⟨hw, claim_C8 4 [] hw⟩

/-- **C9 (counterexample)**  The claim promises the sentinel for an
all-zero buffer of any length, but at sample rate 2 Hz the window length
is `int(2 * 0.25) = 0` and the setup raises before any frame is read
(`none` in the model), silence or not. -/
theorem claim_C9_counterexample :
    runPipeline 2 (List.replicate 3 (0 : ℝ)) = none := by
  have h : winLenOf 2 = 0 := by
    rw [winLenOf_eq]
  unfold runPipeline
  rw [if_pos h]

/-- **C9 (amended)**  A frame whose magnitude spectrum is all zeros is
skipped, contributing nothing to the accumulators; consequently, for any
sample rate giving a nonempty window, an all-zero buffer of any length
returns the undefined-score sentinel without raising. -/
theorem claim_C9 :
    (∀ (freqs hwin : List ℝ) (acc : ℝ × ℝ) (seg : List ℝ),
      (∀ x ∈ magOf hwin seg, x = 0) → processFrame freqs hwin acc seg = acc) ∧
    (∀ fs n : ℕ, winLenOf fs ≠ 0 →
      runPipeline fs (List.replicate n (0 : ℝ)) = some none) :=
  ⟨processFrame_zero_mag, runPipeline_silence⟩

/-- Witness for C9: an empty frame and five samples of silence at 4 Hz. -/
theorem claim_C9_witness :
    (∀ x ∈ magOf ([] : List ℝ) [], x = 0) ∧
    processFrame [] [] (1, 2) [] = (1, 2) ∧
    winLenOf 4 ≠ 0 ∧
    runPipeline 4 (List.replicate 5 (0 : ℝ)) = some none := by
  have hmag : ∀ x ∈ magOf ([] : List ℝ) [], x = 0 :=
    rfftMag_zero _ (by intro y hy; simp at hy)
  have hw : winLenOf 4 ≠ 0 := by
    rw [winLenOf_eq]
    decide
  exact ⟨hmag, claim_C9.1 [] [] (1, 2) [] hmag, hw, claim_C9.2 4 5 hw⟩

/-- **C10**  Every accepted fraction (for a positive raw ratio) has
numerator and denominator at least 1, hence complexity at least 2; the
invariant `totalWeightedComplexity ≥ 2 * totalWeight ≥ 0` holds after
every frame of the loop; and whenever the pipeline returns a defined
score it lies in the interval `(0, 5]`. -/
theorem claim_C10 :
    (∀ r : ℝ, 0 < r → ∀ f, bestFrac r = some f →
      1 ≤ f.num ∧ 1 ≤ f.den ∧ 2 ≤ f.num + f.den) ∧
    (∀ (fs k : ℕ) (audio : List ℝ),
      0 ≤ (accumAfter fs audio k).2 ∧
      2 * (accumAfter fs audio k).2 ≤ (accumAfter fs audio k).1) ∧
    (∀ (fs : ℕ) (audio : List ℝ) (s : ℝ),
      runPipeline fs audio = some (some s) → 0 < s ∧ s ≤ 5) := by
  refine ⟨?_, fun fs k audio => accumAfter_inv fs audio k, ?_⟩
  · intro r hr f hbf
    obtain ⟨h1, h2⟩ := bestFrac_num_den_pos r hr.le f hbf
    exact ⟨h1, h2, by omega⟩
  · intro fs audio s hs
    by_cases hw : winLenOf fs = 0
    · unfold runPipeline at hs
      rw [if_pos hw] at hs
      cases hs
    · rw [runPipeline_eq fs audio hw] at hs
      by_cases hT : (totalContrib fs audio).2 = 0
      · rw [if_pos hT] at hs
        exact absurd (Option.some_inj.1 hs) (by simp)
      · rw [if_neg hT] at hs
        have hsv : s = 10 * (1 / ((totalContrib fs audio).1 /
            (totalContrib fs audio).2)) :=
          (Option.some_inj.1 (Option.some_inj.1 hs)).symm
        have h2 := totalContrib_snd_nonneg fs audio
        have hge := totalContrib_fst_ge fs audio
        have h2' : 0 < (totalContrib fs audio).2 :=
          lt_of_le_of_ne h2 (Ne.symm hT)
        have havg : 2 ≤ (totalContrib fs audio).1 / (totalContrib fs audio).2 :=
          (le_div_iff₀ h2').2 (by linarith)
        have havgpos : 0 < (totalContrib fs audio).1 / (totalContrib fs audio).2 := by
          linarith
        rw [hsv, mul_one_div]
        constructor
        · positivity
        · rw [div_le_iff₀ havgpos]
          linarith

/-- Witness for C10 at ratio 1.4998 (fraction 3/2) and an empty loop. -/
theorem claim_C10_witness :
    0 < (1.4998 : ℝ) ∧
    (1 ≤ (Frac.mk 3 2).num ∧ 1 ≤ (Frac.mk 3 2).den ∧
      2 ≤ (Frac.mk 3 2).num + (Frac.mk 3 2).den) ∧
    (0 ≤ (accumAfter 4 [] 0).2 ∧
      2 * (accumAfter 4 [] 0).2 ≤ (accumAfter 4 [] 0).1) :=
  ⟨by norm_num, claim_C10.1 1.4998 (by norm_num) _ bestFrac_14998,
   claim_C10.2.1 4 0 []⟩

end Consonance

end
